import Mathlib

/-!
Verification of the semantic-binding layer of the script-to-graph compiler
(`torch/csrc/jit/script/compiler.h`).

The header under verification declares the `SugaredValue` capability
hierarchy with default-failing operations, the `SimpleValue` and
`BuiltinFunction` variants, the `CallsiteDescriptor` arity contract, the
`VARARG_OUTPUTS` sentinel, and the compilation entry points
`compileFunction` / `defineMethodsInModule`.  Everything given inline in
the header (the default bodies that throw `ErrorReport`, `SimpleValue`'s
`asValue`, the `kind()` strings, the sentinel constant) is embedded
directly from the source.  The bodies that the header only declares
(`BuiltinFunction::call`, `SimpleValue::attr`, the compilation entry
points) live in a translation unit that is not part of the sources under
verification; those are modelled from the specification and marked as such
in their doc comments.
-/

namespace TorchScript

/-- A source location span.  Used for diagnostics only; modelled as an
opaque identifier. -/
abbrev SourceRange := Nat

/-- An IR graph value handle.  The compiler core only threads these handles;
modelled as an opaque identifier into the collaborator graph. -/
abbrev Value := Nat

/-- A keyword attribute at a call site (`List<Attribute>` in the header);
modelled as a name paired with an opaque payload. -/
abbrev Attribute := String × Nat

/-- The error taxonomy of the compiler core.  The header raises
`ErrorReport(loc) << kind() << " cannot be used as ..."`; each such throw
identifies the variant kind, the missing operation and the call-site
location, which is what this inductive records. -/
inductive CompilerError where
  | capabilityError (kind : String) (op : String) (loc : SourceRange)
  | unresolvedNameError (name : String) (loc : SourceRange)
  | arityMismatchError (expected : Nat) (actual : Nat) (loc : SourceRange)
deriving DecidableEq, Repr

/-- `constexpr size_t VARARG_OUTPUTS = std::numeric_limits<size_t>::max();`
for a machine with word width `w`: the largest value representable in a
`size_t`, i.e. `2 ^ w - 1`. -/
def VARARG_OUTPUTS (w : Nat) : Nat := 2 ^ w - 1

/-- `struct CallsiteDescriptor { size_t n_outputs; bool allow_varargs; };` -/
structure CallsiteDescriptor where
  n_outputs : Nat
  allow_varargs : Bool
deriving DecidableEq, Repr

/-- One operator node of the graph under construction: operator name,
input value handles, keyword attributes and declared output count. -/
structure Node where
  op : String
  inputs : List Value
  attributes : List Attribute
  n_outputs : Nat
deriving DecidableEq, Repr

/-- The method under construction: the list of emitted nodes plus a fresh
counter for allocating new value handles. -/
structure Method where
  nodes : List Node
  next_value : Nat
deriving DecidableEq, Repr

/-- Append an operator node to the method under construction and hand back
its freshly allocated output handles (the graph-builder boundary:
"append operator node with given inputs, receive ordered output handles"). -/
def emitNode (m : Method) (op : String) (inputs : List Value)
    (attributes : List Attribute) (n_outputs : Nat) : List Value × Method :=
  ((List.range n_outputs).map (fun i => m.next_value + i),
   ⟨m.nodes ++ [⟨op, inputs, attributes, n_outputs⟩], m.next_value + n_outputs⟩)

/-- The `SugaredValue` variant set of the header: `SimpleValue` wrapping a
graph value handle, and `BuiltinFunction` with an operator name and an
optional bound value (`Value* value = nullptr`). -/
inductive SugaredValue where
  | simple (value : Value)
  | builtin (name : String) (value : Option Value)
deriving DecidableEq, Repr

namespace SugaredValue

/-- `kind()`: `SimpleValue::kind` returns `"value"`,
`BuiltinFunction::kind` returns `"builtin"`. -/
def kind : SugaredValue → String
  | .simple _ => "value"
  | .builtin _ _ => "builtin"

/-- `asValue(SourceRange, Method&)`.  `SimpleValue` overrides it and
returns the wrapped handle; every other variant uses the base default,
which throws `ErrorReport(loc) << kind() << " cannot be used as a value"`.
The method under construction is returned unchanged in every case. -/
def asValue : SugaredValue → SourceRange → Method →
    Except CompilerError Value × Method
  | .simple v, _, m => (.ok v, m)
  | sv@(.builtin _ _), loc, m =>
      (.error (.capabilityError sv.kind "asValue" loc), m)

/-- A collaborator attribute table: given a field name, optionally produce
the sugared value of the attribute. -/
abbrev AttrTable := String → Option SugaredValue

/-- `attr(SourceRange, Method&, field)`.  `BuiltinFunction` does not
override it, so it uses the base default, which throws
`ErrorReport(loc) << "attribute lookup is not defined on " << kind()`.
`SimpleValue` overrides it with a body outside the verified sources.
Modelled from the spec: `SimpleValue.attr` is "delegated to collaborator
attribute table keyed by the value's declared type"; absence of the field
in the table is a failed attribute lookup. -/
def attr (tbl : AttrTable) : SugaredValue → SourceRange → Method → String →
    Except CompilerError SugaredValue × Method
  | .simple _, loc, m, field =>
      match tbl field with
      | some sv => (.ok sv, m)
      | none => (.error (.capabilityError "value" "attr" loc), m)
  | sv@(.builtin _ _), loc, m, _ =>
      (.error (.capabilityError sv.kind "attr" loc), m)

/-- `asTuple(SourceRange, Method&)`.  No variant in the header overrides
it, so every variant uses the base default, which throws
`ErrorReport(loc) << kind() << " cannot be used as tuple"`. -/
def asTuple : SugaredValue → SourceRange → Method →
    Except CompilerError (List SugaredValue) × Method
  | sv, loc, m => (.error (.capabilityError sv.kind "asTuple" loc), m)

/-- A collaborator operator table: given a built-in operator name,
optionally produce its declared output count. -/
abbrev OpTable := String → Option Nat

/-- `call(SourceRange, Method&, inputs, attributes, CallsiteDescriptor)`.
`SimpleValue` does not override it, so it uses the base default, which
throws `ErrorReport(loc) << "cannot call a " << kind()`.
`BuiltinFunction` overrides it with a body outside the verified sources.
Modelled from the spec: the built-in "resolves name + inputs via
collaborator operator table, validates against `CallsiteDescriptor`,
emits a graph node, returns its outputs"; the validation is the static
arity check "mismatch (when `allow_varargs` is false) is a compile
error". -/
def call (ot : OpTable) : SugaredValue → SourceRange → Method →
    List Value → List Attribute → CallsiteDescriptor →
    Except CompilerError (List Value) × Method
  | sv@(.simple _), loc, m, _, _, _ =>
      (.error (.capabilityError sv.kind "call" loc), m)
  | .builtin name _, loc, m, inputs, attributes, cd =>
      match ot name with
      | none => (.error (.unresolvedNameError name loc), m)
      | some nout =>
          if cd.allow_varargs = false ∧ cd.n_outputs ≠ nout then
            (.error (.arityMismatchError cd.n_outputs nout loc), m)
          else
            let (outs, m') := emitNode m name inputs attributes nout
            (.ok outs, m')

/-- `unrolledFor(SourceRange, Method&)`.  No variant in the header
overrides it, so every variant uses the base default, which throws
`ErrorReport(loc) << kind() << " is not iterable"`. -/
def unrolledFor : SugaredValue → SourceRange → Method →
    Except CompilerError (List SugaredValue) × Method
  | sv, loc, m => (.error (.capabilityError sv.kind "unrolledFor" loc), m)

end SugaredValue

/-- `using Resolver = std::function<std::shared_ptr<SugaredValue>(const
std::string& name)>`: the externally supplied free-variable lookup, a total
function from name to an optional sugared value. -/
abbrev Resolver := String → Option SugaredValue

/-- The lexical environment of the lowering pass: names bound to sugared
values, innermost binding first. -/
abbrev Env := List (String × SugaredValue)

/-- Look a name up in the lexical environment (first binding wins). -/
def lookupEnv : Env → String → Option SugaredValue
  | [], _ => none
  | (k, v) :: rest, n => if n = k then some v else lookupEnv rest n

/-- Lowering state: the method under construction plus the log of names the
resolver has been invoked for (in invocation order). -/
structure LowSt where
  meth : Method
  queries : List String
deriving DecidableEq, Repr

/-- Modelled from the spec: the miniature AST of the external parser
boundary (`Def` trees from `tree_views.h` are outside the verified
sources).  An expression is a name reference or a call of a named callee
whose arguments are name references, each carrying its `SourceRange`. -/
inductive Expr where
  | ident (loc : SourceRange) (name : String)
  | callE (loc : SourceRange) (fn : String) (args : List (SourceRange × String))
deriving DecidableEq, Repr

/-- Modelled from the spec: a statement is an assignment of an expression
to one or more targets, or a bare expression statement. -/
inductive Stmt where
  | assign (loc : SourceRange) (targets : List String) (rhs : Expr)
  | exprStmt (loc : SourceRange) (e : Expr)
deriving DecidableEq, Repr

/-- Modelled from the spec: a function definition — name, formal
parameters, body. -/
structure Def where
  name : String
  params : List String
  body : List Stmt
deriving DecidableEq, Repr

/-- Resolve a name: the lexical environment first; only names not bound in
the current scope are handed to the resolver (and the invocation is
logged).  An absent resolver result becomes `UnresolvedNameError` carrying
the name and `SourceRange`. -/
def lowerName (r : Resolver) (env : Env) (loc : SourceRange) (n : String)
    (st : LowSt) : Except CompilerError SugaredValue × LowSt :=
  match lookupEnv env n with
  | some sv => (.ok sv, st)
  | none =>
      let st' : LowSt := ⟨st.meth, st.queries ++ [n]⟩
      match r n with
      | some sv => (.ok sv, st')
      | none => (.error (.unresolvedNameError n loc), st')

/-- Resolve a name and materialize it as a single graph value
(value-position use). -/
def lowerNameValue (r : Resolver) (env : Env) (loc : SourceRange)
    (n : String) (st : LowSt) : Except CompilerError Value × LowSt :=
  match lowerName r env loc n st with
  | (.error e, st') => (.error e, st')
  | (.ok sv, st') =>
      match sv.asValue loc st'.meth with
      | (.ok v, m') => (.ok v, ⟨m', st'.queries⟩)
      | (.error e, m') => (.error e, ⟨m', st'.queries⟩)

/-- Materialize the argument list of a call, left to right. -/
def lowerArgs (r : Resolver) (env : Env) :
    List (SourceRange × String) → LowSt →
    Except CompilerError (List Value) × LowSt
  | [], st => (.ok [], st)
  | (loc, n) :: rest, st =>
      match lowerNameValue r env loc n st with
      | (.error e, st') => (.error e, st')
      | (.ok v, st') =>
          match lowerArgs r env rest st' with
          | (.error e, st'') => (.error e, st'')
          | (.ok vs, st'') => (.ok (v :: vs), st'')

/-- Modelled from the spec: lower a call expression against a callsite
descriptor computed from the syntactic context — desugar the callee,
materialize the arguments, then invoke the callee's `call` capability. -/
def lowerCall (ot : SugaredValue.OpTable) (r : Resolver) (env : Env)
    (loc : SourceRange) (fn : String) (args : List (SourceRange × String))
    (cd : CallsiteDescriptor) (st : LowSt) :
    Except CompilerError (List Value) × LowSt :=
  match lowerName r env loc fn st with
  | (.error e, st') => (.error e, st')
  | (.ok fsv, st') =>
      match lowerArgs r env args st' with
      | (.error e, st'') => (.error e, st'')
      | (.ok vs, st'') =>
          match SugaredValue.call ot fsv loc st''.meth vs [] cd with
          | (.error e, m') => (.error e, ⟨m', st''.queries⟩)
          | (.ok outs, m') => (.ok outs, ⟨m', st''.queries⟩)

/-- Modelled from the spec: lower an expression in value position
("single-target assignment or value-position use → count = 1,
`allow_varargs = false`"). -/
def lowerExpr (ot : SugaredValue.OpTable) (r : Resolver) (env : Env) :
    Expr → LowSt → Except CompilerError Value × LowSt
  | .ident loc n, st => lowerNameValue r env loc n st
  | .callE loc fn args, st =>
      match lowerCall ot r env loc fn args ⟨1, false⟩ st with
      | (.error e, st') => (.error e, st')
      | (.ok outs, st') =>
          match outs with
          | [v] => (.ok v, st')
          | _ => (.error (.arityMismatchError 1 outs.length loc), st')

/-- Modelled from the spec: lower one statement, producing the updated
lexical environment.  A call on the right-hand side of an assignment with
`N` targets gets descriptor `{ n_outputs := N, allow_varargs := false }`;
a non-call right-hand side with several targets goes through the `asTuple`
capability; results are bound to the targets pairwise. -/
def lowerStmt (ot : SugaredValue.OpTable) (r : Resolver) (env : Env) :
    Stmt → LowSt → Except CompilerError Env × LowSt
  | .assign _ targets (.callE cloc fn args), st =>
      match lowerCall ot r env cloc fn args ⟨targets.length, false⟩ st with
      | (.error e, st') => (.error e, st')
      | (.ok outs, st') =>
          if outs.length = targets.length then
            (.ok (targets.zip (outs.map SugaredValue.simple) ++ env), st')
          else
            (.error (.arityMismatchError targets.length outs.length cloc), st')
  | .assign loc targets (.ident iloc n), st =>
      match lowerName r env iloc n st with
      | (.error e, st') => (.error e, st')
      | (.ok sv, st') =>
          match targets with
          | [t] =>
              match sv.asValue iloc st'.meth with
              | (.ok v, m') =>
                  (.ok ((t, SugaredValue.simple v) :: env), ⟨m', st'.queries⟩)
              | (.error e, m') => (.error e, ⟨m', st'.queries⟩)
          | _ =>
              match sv.asTuple loc st'.meth with
              | (.error e, m') => (.error e, ⟨m', st'.queries⟩)
              | (.ok svs, m') =>
                  if svs.length = targets.length then
                    (.ok (targets.zip svs ++ env), ⟨m', st'.queries⟩)
                  else
                    (.error (.arityMismatchError targets.length svs.length loc),
                     ⟨m', st'.queries⟩)
  | .exprStmt _ e, st =>
      match lowerExpr ot r env e st with
      | (.error e', st') => (.error e', st')
      | (.ok _, st') => (.ok env, st')

/-- Lower a statement list in order, threading the environment; the first
error aborts the rest (no local recovery). -/
def lowerStmts (ot : SugaredValue.OpTable) (r : Resolver) :
    List Stmt → Env → LowSt → Except CompilerError Env × LowSt
  | [], env, st => (.ok env, st)
  | s :: rest, env, st =>
      match lowerStmt ot r env s st with
      | (.error e, st') => (.error e, st')
      | (.ok env', st') => lowerStmts ot r rest env' st'

/-- Bind the formal parameters to fresh graph input values starting at
handle `start`. -/
def paramsEnv : List String → Nat → Env
  | [], _ => []
  | p :: ps, start => (p, SugaredValue.simple start) :: paramsEnv ps (start + 1)

/-- Modelled from the spec: the initial environment of a definition.  "If
`bound_receiver` is present it is implicitly resolved as the first formal
parameter's value"; the remaining formals are bound to fresh graph input
values.  Returns the environment and the next fresh value handle. -/
def initialEnv (self : Option SugaredValue) (params : List String) :
    Env × Nat :=
  match self, params with
  | some sv, p :: ps => ((p, sv) :: paramsEnv ps 0, ps.length)
  | some _, [] => ([], 0)
  | none, ps => (paramsEnv ps 0, ps.length)

/-- Modelled from the spec: compile one definition — build the initial
environment (binding the receiver when present), lower the body, and
either return the finished graph or abort with the first error.  Also
returns the log of resolver invocations. -/
def compileDef (ot : SugaredValue.OpTable) (r : Resolver)
    (self : Option SugaredValue) (d : Def) :
    Except CompilerError Method × List String :=
  let (env0, nv) := initialEnv self d.params
  match lowerStmts ot r d.body env0 ⟨⟨[], nv⟩, []⟩ with
  | (.ok _, st) => (.ok st.meth, st.queries)
  | (.error e, st) => (.error e, st.queries)

/-- `compileFunction(Def, Resolver)`.  Modelled from the spec: "lowers a
single function definition to a standalone graph using only the given
resolver for free names (no receiver binding)". -/
def compileFunction (ot : SugaredValue.OpTable) (d : Def) (r : Resolver) :
    Except CompilerError Method :=
  (compileDef ot r none d).1

/-- The module method table: registered methods by name. -/
abbrev Module := List (String × Method)

/-- Register a compiled method on a module. -/
def registerMethod (m : Module) (name : String) (g : Method) : Module :=
  (name, g) :: m

/-- Look up a registered method. -/
def lookupMethod : Module → String → Option Method
  | [], _ => none
  | (k, v) :: rest, n => if n = k then some v else lookupMethod rest n

/-- `defineMethodsInModule(Module&, definitions, resolver, self)`.
Modelled from the spec: process the definitions in order; each one either
compiles fully and is registered under its name, or aborts the whole call
with the first error, leaving the module as it stood before the failing
definition (no partially registered method). -/
def defineMethodsInModule (ot : SugaredValue.OpTable) (m : Module) :
    List Def → Resolver → Option SugaredValue →
    Except (CompilerError × Module) Module
  | [], _, _ => .ok m
  | d :: rest, r, self =>
      match (compileDef ot r self d).1 with
      | .error e => .error (e, m)
      | .ok g => defineMethodsInModule ot (registerMethod m d.name g) rest r self

/-- Register exactly the fully compiled definitions of a batch prefix on a
module: a definition whose compilation fails contributes nothing. -/
def registerCompiled (ot : SugaredValue.OpTable) (r : Resolver)
    (self : Option SugaredValue) (m : Module) (pre : List Def) : Module :=
  pre.foldl (fun acc d =>
    match (compileDef ot r self d).1 with
    | .ok g => registerMethod acc d.name g
    | .error _ => acc) m

/-- Does the expression reference a name outside the bound set? -/
def freeInExpr (bound : List String) : Expr → Bool
  | .ident _ n => !(bound.contains n)
  | .callE _ fn args =>
      !(bound.contains fn) || args.any (fun a => !(bound.contains a.2))

/-- Does the statement list reference a name that is neither a formal
parameter nor a previously assigned target (a free variable)? -/
def hasFree (bound : List String) : List Stmt → Bool
  | [] => false
  | .assign _ ts rhs :: rest =>
      freeInExpr bound rhs || hasFree (ts ++ bound) rest
  | .exprStmt _ e :: rest => freeInExpr bound e || hasFree bound rest

/-- All name occurrences of an expression with their source ranges, in
lowering order. -/
def mentionsExpr : Expr → List (String × SourceRange)
  | .ident loc n => [(n, loc)]
  | .callE loc fn args => (fn, loc) :: args.map (fun a => (a.2, a.1))

/-- All name occurrences of a statement list with their source ranges. -/
def mentionsStmts : List Stmt → List (String × SourceRange)
  | [] => []
  | .assign _ _ rhs :: rest => mentionsExpr rhs ++ mentionsStmts rest
  | .exprStmt _ e :: rest => mentionsExpr e ++ mentionsStmts rest

/-- Every binding of the environment wraps a plain graph value (the shape
of every environment reachable without a resolver-supplied sugared
value). -/
def allSimple (env : Env) : Prop :=
  ∀ kv ∈ env, ∃ v, kv.2 = SugaredValue.simple v

/-- The free-variable occurrences of an expression relative to a bound
set: the name occurrences, with their source ranges, whose name is not in
the bound set. -/
def freeMentionsExpr (bound : List String) : Expr →
    List (String × SourceRange)
  | .ident loc n => if bound.contains n then [] else [(n, loc)]
  | .callE loc fn args =>
      (if bound.contains fn then [] else [(fn, loc)]) ++
      (args.filter (fun a => !(bound.contains a.2))).map (fun a => (a.2, a.1))

/-- The free-variable occurrences of a statement list: names not bound by
the initial bound set nor by an earlier assignment target. -/
def freeMentionsStmts (bound : List String) :
    List Stmt → List (String × SourceRange)
  | [] => []
  | .assign _ ts rhs :: rest =>
      freeMentionsExpr bound rhs ++ freeMentionsStmts (ts ++ bound) rest
  | .exprStmt _ e :: rest =>
      freeMentionsExpr bound e ++ freeMentionsStmts bound rest

/-- C1: for every `SugaredValue` variant and every capability operation it
does not override (`asTuple`, `call`, `unrolledFor` on `SimpleValue`;
`asValue`, `attr`, `asTuple`, `unrolledFor` on `BuiltinFunction`), the
default implementation fails with a `CapabilityError` identifying the
variant's kind and the missing operation, tagged with the call-site
`SourceRange`; the method under construction is returned unchanged (no
graph mutation) and no degenerate success value is ever produced. -/
theorem claim_C1_unoverridden_capabilities_fail
    (ot : SugaredValue.OpTable) (tbl : SugaredValue.AttrTable)
    (v : Value) (name : String) (bv : Option Value)
    (loc : SourceRange) (m : Method) (inputs : List Value)
    (attributes : List Attribute) (cd : CallsiteDescriptor) (field : String) :
    SugaredValue.asTuple (.simple v) loc m
      = (.error (.capabilityError "value" "asTuple" loc), m) ∧
    SugaredValue.call ot (.simple v) loc m inputs attributes cd
      = (.error (.capabilityError "value" "call" loc), m) ∧
    SugaredValue.unrolledFor (.simple v) loc m
      = (.error (.capabilityError "value" "unrolledFor" loc), m) ∧
    SugaredValue.asValue (.builtin name bv) loc m
      = (.error (.capabilityError "builtin" "asValue" loc), m) ∧
    SugaredValue.attr tbl (.builtin name bv) loc m field
      = (.error (.capabilityError "builtin" "attr" loc), m) ∧
    SugaredValue.asTuple (.builtin name bv) loc m
      = (.error (.capabilityError "builtin" "asTuple" loc), m) ∧
    SugaredValue.unrolledFor (.builtin name bv) loc m
      = (.error (.capabilityError "builtin" "unrolledFor" loc), m) := by
  refine ⟨rfl, rfl, rfl, rfl, rfl, rfl, rfl⟩

/-- C7: for every graph value handle, `SourceRange` and method under
construction, `SimpleValue(v).asValue` returns exactly the wrapped handle
and leaves the method unchanged (no node emitted, no mutation). -/
theorem claim_C7_simple_asValue_returns_wrapped_handle
    (v : Value) (loc : SourceRange) (m : Method) :
    SugaredValue.asValue (.simple v) loc m = (.ok v, m) := rfl

/-- C10: a `BuiltinFunction` constructed with a non-null bound value still
fails `asValue`, `attr`, `asTuple` and `unrolledFor` with the default
`CapabilityError` for kind `"builtin"`: the stored value member never makes
the built-in materializable; only `call` is overridden. -/
theorem claim_C10_builtin_with_bound_value_not_materializable
    (tbl : SugaredValue.AttrTable) (name : String) (v : Value)
    (loc : SourceRange) (m : Method) (field : String) :
    SugaredValue.asValue (.builtin name (some v)) loc m
      = (.error (.capabilityError "builtin" "asValue" loc), m) ∧
    SugaredValue.attr tbl (.builtin name (some v)) loc m field
      = (.error (.capabilityError "builtin" "attr" loc), m) ∧
    SugaredValue.asTuple (.builtin name (some v)) loc m
      = (.error (.capabilityError "builtin" "asTuple" loc), m) ∧
    SugaredValue.unrolledFor (.builtin name (some v)) loc m
      = (.error (.capabilityError "builtin" "unrolledFor" loc), m) := by
  refine ⟨rfl, rfl, rfl, rfl⟩

/-- C9: `VARARG_OUTPUTS` is the maximum value of a `size_t` of word width
`w`, namely `2 ^ w - 1`; it is an in-band sentinel: a
`CallsiteDescriptor` whose `n_outputs` equals `2 ^ w - 1` has exactly the
sentinel as its expected output count (indistinguishable from a variadic
callsite), while every expected output count strictly below `2 ^ w - 1`
is distinct from the sentinel. -/
theorem claim_C9_vararg_sentinel_in_band (w : Nat) :
    VARARG_OUTPUTS w = 2 ^ w - 1 ∧
    (∀ cd : CallsiteDescriptor,
      cd.n_outputs = 2 ^ w - 1 ↔ cd.n_outputs = VARARG_OUTPUTS w) ∧
    (∀ n : Nat, n < 2 ^ w - 1 → n ≠ VARARG_OUTPUTS w) := by
  refine ⟨rfl, fun cd => Iff.rfl, fun n hn => ?_⟩
  intro h
  rw [h, VARARG_OUTPUTS] at hn
  exact lt_irrefl _ hn

/-- C9 witness: at word width 64, the sentinel is `2 ^ 64 - 1` and the
expected output count `3` is distinct from it. -/
theorem claim_C9_vararg_sentinel_in_band_witness :
    VARARG_OUTPUTS 64 = 2 ^ 64 - 1 ∧ (3 : Nat) ≠ VARARG_OUTPUTS 64 :=
  ⟨(claim_C9_vararg_sentinel_in_band 64).1,
   (claim_C9_vararg_sentinel_in_band 64).2.2 3 (by decide)⟩

/-- C2: a call through `BuiltinFunction`'s `call` with `allow_varargs`
false whose resolved operator produces `M` outputs while `N` were expected,
`M ≠ N`, fails at lowering time with `ArityMismatchError(N, M, loc)`; the
method under construction is returned unchanged (the check is static — no
node is emitted, nothing is deferred). -/
theorem claim_C2_builtin_call_arity_mismatch
    (ot : SugaredValue.OpTable) (name : String) (bv : Option Value)
    (loc : SourceRange) (m : Method) (inputs : List Value)
    (attributes : List Attribute) (cd : CallsiteDescriptor) (M : Nat)
    (hres : ot name = some M) (hvar : cd.allow_varargs = false)
    (hne : cd.n_outputs ≠ M) :
    SugaredValue.call ot (.builtin name bv) loc m inputs attributes cd
      = (.error (.arityMismatchError cd.n_outputs M loc), m) := by
  simp only [SugaredValue.call, hres]
  simp [hvar, hne]

/-- C2 witness: a builtin resolving to 2 outputs, called expecting 1
output with varargs disallowed, fails with `ArityMismatchError(1, 2, 7)`. -/
theorem claim_C2_builtin_call_arity_mismatch_witness :
    SugaredValue.call (fun _ => some 2) (.builtin "add" none) 7 ⟨[], 0⟩ [] []
        ⟨1, false⟩
      = (.error (.arityMismatchError 1 2 7), ⟨[], 0⟩) :=
  claim_C2_builtin_call_arity_mismatch (fun _ => some 2) "add" none 7
    ⟨[], 0⟩ [] [] ⟨1, false⟩ 2 rfl rfl (by decide)

/-- C3: a `BuiltinFunction` invoked via `call` with a valid operator name
and arity matching its `CallsiteDescriptor` emits exactly one graph node;
the node's inputs are the resolved call inputs and the returned output
sequence has length equal to the resolved operator's declared output
count. -/
theorem claim_C3_builtin_call_emits_one_node
    (ot : SugaredValue.OpTable) (name : String) (bv : Option Value)
    (loc : SourceRange) (m : Method) (inputs : List Value)
    (attributes : List Attribute) (cd : CallsiteDescriptor) (nout : Nat)
    (hres : ot name = some nout) (hmatch : cd.n_outputs = nout) :
    ∃ outs m',
      SugaredValue.call ot (.builtin name bv) loc m inputs attributes cd
        = (.ok outs, m') ∧
      m'.nodes = m.nodes ++ [⟨name, inputs, attributes, nout⟩] ∧
      m'.nodes.length = m.nodes.length + 1 ∧
      outs.length = nout := by
  refine ⟨(List.range nout).map (fun i => m.next_value + i),
    ⟨m.nodes ++ [⟨name, inputs, attributes, nout⟩], m.next_value + nout⟩,
    ?_, rfl, by simp, by simp⟩
  simp only [SugaredValue.call, hres]
  simp [hmatch, emitNode]

/-- C3 witness: a builtin resolving to 2 outputs, called with matching
descriptor arity 2 on a method with one prior node, emits exactly one new
node with the given inputs and returns 2 outputs. -/
theorem claim_C3_builtin_call_emits_one_node_witness :
    ∃ outs m',
      SugaredValue.call (fun _ => some 2) (.builtin "chunk" none) 5
          ⟨[⟨"neg", [0], [], 1⟩], 4⟩ [1, 2] [] ⟨2, false⟩
        = (.ok outs, m') ∧
      m'.nodes = [⟨"neg", [0], [], 1⟩] ++ [⟨"chunk", [1, 2], [], 2⟩] ∧
      m'.nodes.length = 1 + 1 ∧
      outs.length = 2 :=
  claim_C3_builtin_call_emits_one_node (fun _ => some 2) "chunk" none 5
    ⟨[⟨"neg", [0], [], 1⟩], 4⟩ [1, 2] [] ⟨2, false⟩ 2 rfl rfl

/-- C8: compiling the same definition twice with an identical (pointwise
equal) resolver and identical bound receiver yields identical results —
the same success/failure outcome and the very same graph (hence the same
node count and operator sequence); compilation output is deterministic. -/
theorem claim_C8_compilation_deterministic
    (ot : SugaredValue.OpTable) (d : Def) (self : Option SugaredValue)
    (r1 r2 : Resolver) (h : ∀ n, r1 n = r2 n) :
    compileDef ot r1 self d = compileDef ot r2 self d ∧
    compileFunction ot d r1 = compileFunction ot d r2 := by
  have hr : r1 = r2 := funext h
  subst hr
  exact ⟨rfl, rfl⟩

/-- C8 witness: two textually distinct but pointwise equal resolvers give
the same compilation result on a concrete definition. -/
theorem claim_C8_compilation_deterministic_witness :
    compileDef (fun _ => some 1) (fun n => if n = "f" then none else none)
        none ⟨"g", ["x"], [.exprStmt 0 (.ident 1 "x")]⟩
      = compileDef (fun _ => some 1) (fun _ => none)
        none ⟨"g", ["x"], [.exprStmt 0 (.ident 1 "x")]⟩ :=
  (claim_C8_compilation_deterministic (fun _ => some 1)
    ⟨"g", ["x"], [.exprStmt 0 (.ident 1 "x")]⟩ none
    (fun n => if n = "f" then none else none) (fun _ => none)
    (fun n => by by_cases hn : n = "f" <;> simp [hn])).1

/-- A name appearing in the query log after `lowerName` was either already
logged or was absent from the lexical environment. -/
theorem lowerName_queries_mem (r : Resolver) (env : Env) (loc : SourceRange)
    (n' : String) (st : LowSt) (n : String)
    (h : n ∈ ((lowerName r env loc n' st).2).queries) :
    n ∈ st.queries ∨ lookupEnv env n = none := by
  unfold lowerName at h
  cases hl : lookupEnv env n' with
  | some sv => rw [hl] at h; exact Or.inl h
  | none =>
      rw [hl] at h
      have hmem : n ∈ st.queries ++ [n'] := by
        cases hr : r n' with
        | some sv => rw [hr] at h; exact h
        | none => rw [hr] at h; exact h
      rcases List.mem_append.mp hmem with h1 | h2
      · exact Or.inl h1
      · have he : n = n' := by simpa using h2
        exact Or.inr (he ▸ hl)

/-- `lowerNameValue` logs exactly the queries `lowerName` logs. -/
theorem lowerNameValue_queries (r : Resolver) (env : Env)
    (loc : SourceRange) (n' : String) (st : LowSt) :
    ((lowerNameValue r env loc n' st).2).queries
      = ((lowerName r env loc n' st).2).queries := by
  unfold lowerNameValue
  split <;> rename_i x st' heq <;> rw [heq]
  split <;> rfl

/-- A name appearing in the query log after `lowerArgs` was either already
logged or was absent from the lexical environment. -/
theorem lowerArgs_queries_mem (r : Resolver) (env : Env)
    (args : List (SourceRange × String)) (st : LowSt) (n : String)
    (h : n ∈ ((lowerArgs r env args st).2).queries) :
    n ∈ st.queries ∨ lookupEnv env n = none := by
  induction args generalizing st with
  | nil => exact Or.inl h
  | cons a rest ih =>
      obtain ⟨aloc, an⟩ := a
      unfold lowerArgs at h
      rcases hv : lowerNameValue r env aloc an st with ⟨vres, st'⟩
      rw [hv] at h
      have hst' : ∀ x, x ∈ st'.queries →
          x ∈ st.queries ∨ lookupEnv env x = none := by
        intro x hx
        have hx' : x ∈ ((lowerNameValue r env aloc an st).2).queries := by
          rw [hv]; exact hx
        rw [lowerNameValue_queries] at hx'
        exact lowerName_queries_mem r env aloc an st x hx'
      cases vres with
      | error e => exact hst' n (by simpa using h)
      | ok v =>
          dsimp only at h
          rcases ha : lowerArgs r env rest st' with ⟨ares, st''⟩
          rw [ha] at h
          have hmem : n ∈ st''.queries := by cases ares <;> simpa using h
          rcases ih st' (by rw [ha]; exact hmem) with h1 | h2
          · exact hst' n h1
          · exact Or.inr h2

/-- A name appearing in the query log after `lowerCall` was either already
logged or was absent from the lexical environment. -/
theorem lowerCall_queries_mem (ot : SugaredValue.OpTable) (r : Resolver)
    (env : Env) (loc : SourceRange) (fn : String)
    (args : List (SourceRange × String)) (cd : CallsiteDescriptor)
    (st : LowSt) (n : String)
    (h : n ∈ ((lowerCall ot r env loc fn args cd st).2).queries) :
    n ∈ st.queries ∨ lookupEnv env n = none := by
  unfold lowerCall at h
  rcases hf : lowerName r env loc fn st with ⟨fres, st'⟩
  rw [hf] at h
  have hstep : ∀ x, x ∈ st'.queries →
      x ∈ st.queries ∨ lookupEnv env x = none := by
    intro x hx
    exact lowerName_queries_mem r env loc fn st x (by rw [hf]; exact hx)
  cases fres with
  | error e => exact hstep n (by simpa using h)
  | ok fsv =>
      dsimp only at h
      rcases ha : lowerArgs r env args st' with ⟨ares, st''⟩
      rw [ha] at h
      have hstep2 : ∀ x, x ∈ st''.queries →
          x ∈ st.queries ∨ lookupEnv env x = none := by
        intro x hx
        rcases lowerArgs_queries_mem r env args st' x (by rw [ha]; exact hx)
          with h1 | h2
        · exact hstep x h1
        · exact Or.inr h2
      cases ares with
      | error e => exact hstep2 n (by simpa using h)
      | ok vs =>
          dsimp only at h
          rcases hc : SugaredValue.call ot fsv loc st''.meth vs [] cd
            with ⟨cres, m'⟩
          rw [hc] at h
          have hmem : n ∈ st''.queries := by cases cres <;> simpa using h
          exact hstep2 n hmem

/-- A name appearing in the query log after `lowerExpr` was either already
logged or was absent from the lexical environment. -/
theorem lowerExpr_queries_mem (ot : SugaredValue.OpTable) (r : Resolver)
    (env : Env) (e : Expr) (st : LowSt) (n : String)
    (h : n ∈ ((lowerExpr ot r env e st).2).queries) :
    n ∈ st.queries ∨ lookupEnv env n = none := by
  cases e with
  | ident loc nm =>
      have hq : ((lowerExpr ot r env (.ident loc nm) st).2).queries
          = ((lowerName r env loc nm st).2).queries := by
        show ((lowerNameValue r env loc nm st).2).queries = _
        exact lowerNameValue_queries r env loc nm st
      exact lowerName_queries_mem r env loc nm st n (hq ▸ h)
  | callE loc fn args =>
      simp only [lowerExpr] at h
      rcases hc : lowerCall ot r env loc fn args ⟨1, false⟩ st with ⟨cres, st'⟩
      have hmem : n ∈ st'.queries := by
        cases cres with
        | error e => rw [hc] at h; simpa using h
        | ok outs =>
            rw [hc] at h
            cases outs with
            | nil => simpa using h
            | cons v vs => cases vs <;> simpa using h
      exact lowerCall_queries_mem ot r env loc fn args ⟨1, false⟩ st n
        (by rw [hc]; exact hmem)

/-- Prepending bindings never removes a name from the lexical
environment. -/
theorem lookupEnv_append_isSome (xs env : Env) (n : String)
    (h : lookupEnv env n ≠ none) : lookupEnv (xs ++ env) n ≠ none := by
  induction xs with
  | nil => simpa using h
  | cons kv rest ih =>
      obtain ⟨k, v⟩ := kv
      by_cases hk : n = k
      · simp [lookupEnv, hk]
      · simpa [lookupEnv, hk] using ih

/-- A name appearing in the query log after `lowerStmt` was either already
logged or was absent from the lexical environment. -/
theorem lowerStmt_queries_mem (ot : SugaredValue.OpTable) (r : Resolver)
    (env : Env) (s : Stmt) (st : LowSt) (n : String)
    (h : n ∈ ((lowerStmt ot r env s st).2).queries) :
    n ∈ st.queries ∨ lookupEnv env n = none := by
  cases s with
  | assign loc targets rhs =>
      cases rhs with
      | callE cloc fn args =>
          simp only [lowerStmt] at h
          split at h
          next e st' heq =>
              exact lowerCall_queries_mem ot r env cloc fn args
                ⟨targets.length, false⟩ st n (by rw [heq]; exact h)
          next outs st' heq =>
              have hm : n ∈ st'.queries := by split at h <;> exact h
              exact lowerCall_queries_mem ot r env cloc fn args
                ⟨targets.length, false⟩ st n (by rw [heq]; exact hm)
      | ident iloc nm =>
          have tuplecase : ∀ (tg : List String),
              (∀ (sv : SugaredValue) (st' : LowSt),
                n ∈ ((match sv.asTuple loc st'.meth with
                | (.error e, m') =>
                    ((.error e : Except CompilerError Env),
                     (⟨m', st'.queries⟩ : LowSt))
                | (.ok svs, m') =>
                    if svs.length = tg.length then
                      (.ok (tg.zip svs ++ env), ⟨m', st'.queries⟩)
                    else
                      (.error (.arityMismatchError tg.length svs.length loc),
                       ⟨m', st'.queries⟩)).2).queries → n ∈ st'.queries) := by
            intro tg sv st' hx
            split at hx
            next => exact hx
            next => split at hx <;> exact hx
          cases targets with
          | cons t ts =>
              cases ts with
              | nil =>
                  simp only [lowerStmt] at h
                  split at h
                  next e st' heq =>
                      exact lowerName_queries_mem r env iloc nm st n
                        (by rw [heq]; exact h)
                  next sv st' heq =>
                      have hm : n ∈ st'.queries := by split at h <;> exact h
                      exact lowerName_queries_mem r env iloc nm st n
                        (by rw [heq]; exact hm)
              | cons t2 ts2 =>
                  simp only [lowerStmt] at h
                  split at h
                  next e st' heq =>
                      exact lowerName_queries_mem r env iloc nm st n
                        (by rw [heq]; exact h)
                  next sv st' heq =>
                      exact lowerName_queries_mem r env iloc nm st n
                        (by rw [heq]; exact tuplecase (t :: t2 :: ts2) sv st' h)
          | nil =>
              simp only [lowerStmt] at h
              split at h
              next e st' heq =>
                  exact lowerName_queries_mem r env iloc nm st n
                    (by rw [heq]; exact h)
              next sv st' heq =>
                  exact lowerName_queries_mem r env iloc nm st n
                    (by rw [heq]; exact tuplecase [] sv st' h)
  | exprStmt loc e =>
      simp only [lowerStmt] at h
      split at h
      next e' st' heq =>
          exact lowerExpr_queries_mem ot r env e st n (by rw [heq]; exact h)
      next v st' heq =>
          exact lowerExpr_queries_mem ot r env e st n (by rw [heq]; exact h)

/-- A successful `lowerStmt` only ever extends the lexical environment with
new bindings in front. -/
theorem lowerStmt_env_extends (ot : SugaredValue.OpTable) (r : Resolver)
    (env : Env) (s : Stmt) (st : LowSt) (env' : Env) (st' : LowSt)
    (h : lowerStmt ot r env s st = (.ok env', st')) :
    ∃ xs, env' = xs ++ env := by
  cases s with
  | assign loc targets rhs =>
      cases rhs with
      | callE cloc fn args =>
          simp only [lowerStmt] at h
          split at h
          next e st'' heq => simp at h
          next outs st'' heq =>
              split at h
              · simp only [Prod.mk.injEq] at h
                injection h.1 with h1
                exact ⟨targets.zip (outs.map SugaredValue.simple), h1.symm⟩
              · simp at h
      | ident iloc nm =>
          cases targets with
          | cons t ts =>
              cases ts with
              | nil =>
                  simp only [lowerStmt] at h
                  split at h
                  next e st'' heq => simp at h
                  next sv st'' heq =>
                      split at h
                      next v m' heq2 =>
                          simp only [Prod.mk.injEq] at h
                          injection h.1 with h1
                          exact ⟨[(t, SugaredValue.simple v)], h1.symm⟩
                      next e m' heq2 => simp at h
              | cons t2 ts2 =>
                  simp only [lowerStmt] at h
                  split at h
                  next e st'' heq => simp at h
                  next sv st'' heq =>
                      split at h
                      next e m' heq2 => simp at h
                      next svs m' heq2 =>
                          split at h
                          · simp only [Prod.mk.injEq] at h
                            injection h.1 with h1
                            exact ⟨(t :: t2 :: ts2).zip svs, h1.symm⟩
                          · simp at h
          | nil =>
              simp only [lowerStmt] at h
              split at h
              next e st'' heq => simp at h
              next sv st'' heq =>
                  split at h
                  next e m' heq2 => simp at h
                  next svs m' heq2 =>
                      split at h
                      · simp only [Prod.mk.injEq] at h
                        injection h.1 with h1
                        exact ⟨[].zip svs, h1.symm⟩
                      · simp at h
  | exprStmt loc e =>
      simp only [lowerStmt] at h
      split at h
      next e' st'' heq => simp at h
      next v st'' heq =>
          simp only [Prod.mk.injEq] at h
          injection h.1 with h1
          exact ⟨[], h1.symm⟩

/-- A name bound in the lexical environment is never handed to the
resolver by `lowerStmts`: its queries all concern names that were absent
when queried. -/
theorem lowerStmts_queries_mem (ot : SugaredValue.OpTable) (r : Resolver)
    (ss : List Stmt) (env : Env) (st : LowSt) (n : String)
    (hbound : lookupEnv env n ≠ none)
    (h : n ∈ ((lowerStmts ot r ss env st).2).queries) :
    n ∈ st.queries := by
  induction ss generalizing env st with
  | nil => exact h
  | cons s rest ih =>
      simp only [lowerStmts] at h
      rcases hs : lowerStmt ot r env s st with ⟨sres, st'⟩
      rw [hs] at h
      cases sres with
      | error e =>
          rcases lowerStmt_queries_mem ot r env s st n
            (by rw [hs]; simpa using h) with h1 | h2
          · exact h1
          · exact absurd h2 hbound
      | ok env' =>
          dsimp only at h
          obtain ⟨xs, hxs⟩ := lowerStmt_env_extends ot r env s st env' st' hs
          have hbound' : lookupEnv env' n ≠ none := by
            rw [hxs]; exact lookupEnv_append_isSome xs env n hbound
          have hmem' : n ∈ st'.queries := ih env' st' hbound' h
          rcases lowerStmt_queries_mem ot r env s st n
            (by rw [hs]; exact hmem') with h1 | h2
          · exact h1
          · exact absurd h2 hbound

/-- The resolver-query log of `compileDef` is the log accumulated while
lowering the body from the initial environment. -/
theorem compileDef_queries (ot : SugaredValue.OpTable) (r : Resolver)
    (self : Option SugaredValue) (d : Def) (env0 : Env) (nv : Nat)
    (he : initialEnv self d.params = (env0, nv)) :
    (compileDef ot r self d).2
      = ((lowerStmts ot r d.body env0 ⟨⟨[], nv⟩, []⟩).2).queries := by
  unfold compileDef
  rw [he]
  dsimp only
  split
  next env1 st heq2 => rw [heq2]
  next e st heq2 => rw [heq2]

/-- C4: under `defineMethodsInModule`-style compilation with a non-null
bound receiver, the first formal parameter's name is bound to the receiver
value in the initial environment, the resolver is never invoked for that
name during the whole compilation of the definition, and any name that is
not lexically bound falls back to the supplied resolver (its result, when
absent, becoming an `UnresolvedNameError`, and the invocation being
logged). -/
theorem claim_C4_receiver_bound_first_param
    (ot : SugaredValue.OpTable) (r : Resolver) (sv : SugaredValue)
    (d : Def) (p : String) (ps : List String) (hp : d.params = p :: ps) :
    lookupEnv (initialEnv (some sv) d.params).1 p = some sv ∧
    p ∉ (compileDef ot r (some sv) d).2 ∧
    (∀ (env : Env) (loc : SourceRange) (nm : String) (st : LowSt),
      lookupEnv env nm = none →
      (lowerName r env loc nm st).1
        = (match r nm with
           | some v => .ok v
           | none => .error (.unresolvedNameError nm loc)) ∧
      ((lowerName r env loc nm st).2).queries = st.queries ++ [nm]) := by
  refine ⟨?_, ?_, ?_⟩
  · rw [hp]; simp [initialEnv, lookupEnv]
  · intro hmem
    have he : initialEnv (some sv) d.params
        = ((p, sv) :: paramsEnv ps 0, ps.length) := by
      rw [hp]; rfl
    rw [compileDef_queries ot r (some sv) d _ _ he] at hmem
    have hbound : lookupEnv ((p, sv) :: paramsEnv ps 0) p ≠ none := by
      simp [lookupEnv]
    have hfin := lowerStmts_queries_mem ot r d.body _ _ p hbound hmem
    simp at hfin
  · intro env loc nm st hnone
    unfold lowerName
    rw [hnone]
    cases hr : r nm <;> simp

/-- C4 witness: on a concrete two-parameter definition whose body uses
both the receiver name and a resolver-supplied builtin, the first
parameter is bound to the receiver and the resolver log never contains the
receiver name. -/
theorem claim_C4_receiver_bound_first_param_witness :
    lookupEnv (initialEnv (some (.simple 7)) ["self", "x"]).1 "self"
      = some (.simple 7) ∧
    "self" ∉ (compileDef (fun _ => some 1)
      (fun nm => if nm = "f" then some (.builtin "relu" none) else none)
      (some (.simple 7))
      ⟨"m", ["self", "x"],
        [.exprStmt 0 (.ident 1 "self"),
         .exprStmt 2 (.callE 3 "f" [(4, "x")])]⟩).2 :=
  ⟨(claim_C4_receiver_bound_first_param (fun _ => some 1)
      (fun nm => if nm = "f" then some (.builtin "relu" none) else none)
      (.simple 7)
      ⟨"m", ["self", "x"],
        [.exprStmt 0 (.ident 1 "self"),
         .exprStmt 2 (.callE 3 "f" [(4, "x")])]⟩ "self" ["x"] rfl).1,
   (claim_C4_receiver_bound_first_param (fun _ => some 1)
      (fun nm => if nm = "f" then some (.builtin "relu" none) else none)
      (.simple 7)
      ⟨"m", ["self", "x"],
        [.exprStmt 0 (.ident 1 "self"),
         .exprStmt 2 (.callE 3 "f" [(4, "x")])]⟩ "self" ["x"] rfl).2.1⟩

/-- Registering only fully compiled definitions leaves any name outside
the batch prefix untouched in the module table. -/
theorem lookupMethod_registerCompiled (ot : SugaredValue.OpTable)
    (r : Resolver) (self : Option SugaredValue) (m : Module)
    (pre : List Def) (nm : String) (h : nm ∉ pre.map Def.name) :
    lookupMethod (registerCompiled ot r self m pre) nm = lookupMethod m nm := by
  induction pre generalizing m with
  | nil => rfl
  | cons d0 rest ih =>
      simp only [List.map_cons, List.mem_cons] at h
      push_neg at h
      obtain ⟨h1, h2⟩ := h
      have hstep : registerCompiled ot r self m (d0 :: rest)
          = registerCompiled ot r self
            (match (compileDef ot r self d0).1 with
             | .ok g => registerMethod m d0.name g
             | .error _ => m) rest := rfl
      rw [hstep]
      have hlook : lookupMethod
          (match (compileDef ot r self d0).1 with
           | .ok g => registerMethod m d0.name g
           | .error _ => m) nm = lookupMethod m nm := by
        cases hc : (compileDef ot r self d0).1 with
        | ok g => simp [registerMethod, lookupMethod, h1]
        | error e => rfl
      rw [ih _ (by simpa using h2), hlook]

/-- C5: compilation of a batch is all-or-nothing per definition — when
`defineMethodsInModule` fails, the batch splits into fully compiled,
registered definitions, then the first failing definition, whose error is
exactly the first compilation error and whose registration is absent from
the resulting module (nothing partial is ever visible). -/
theorem claim_C5_all_or_nothing (ot : SugaredValue.OpTable) (r : Resolver)
    (self : Option SugaredValue) (m : Module) (defs : List Def)
    (e : CompilerError) (m' : Module)
    (h : defineMethodsInModule ot m defs r self = .error (e, m')) :
    ∃ pre d post,
      defs = pre ++ d :: post ∧
      (∀ d' ∈ pre, ∃ g, (compileDef ot r self d').1 = .ok g) ∧
      (compileDef ot r self d).1 = .error e ∧
      m' = registerCompiled ot r self m pre ∧
      (d.name ∉ pre.map Def.name →
        lookupMethod m' d.name = lookupMethod m d.name) := by
  induction defs generalizing m with
  | nil => simp [defineMethodsInModule] at h
  | cons d0 rest ih =>
      simp only [defineMethodsInModule] at h
      split at h
      next e0 heq =>
          injection h with h'
          obtain ⟨he, hm⟩ := Prod.mk.injEq .. ▸ h'
          refine ⟨[], d0, rest, rfl, by simp, ?_, ?_, ?_⟩
          · rw [heq, he]
          · rw [← hm]; rfl
          · intro _; rw [← hm]
      next g heq =>
          obtain ⟨pre, d, post, hsplit, hpre, herr, hm', habs⟩ :=
            ih (registerMethod m d0.name g) h
          refine ⟨d0 :: pre, d, post, by rw [hsplit]; rfl, ?_, herr, ?_, ?_⟩
          · intro d' hd'
            rcases List.mem_cons.mp hd' with hd' | hd'
            · exact ⟨g, by rw [hd']; exact heq⟩
            · exact hpre d' hd'
          · rw [hm']
            have : registerCompiled ot r self m (d0 :: pre)
                = registerCompiled ot r self
                  (match (compileDef ot r self d0).1 with
                   | .ok g => registerMethod m d0.name g
                   | .error _ => m) pre := rfl
            rw [this, heq]
          · intro hnot
            simp only [List.map_cons, List.mem_cons] at hnot
            push_neg at hnot
            obtain ⟨hn1, hn2⟩ := hnot
            rw [habs (by simpa using hn2)]
            simp [registerMethod, lookupMethod, hn1]

/-- C5 witness: a concrete batch whose first definition compiles and whose
second hits an unresolved name splits as the theorem states; the failing
definition is never registered. -/
theorem claim_C5_all_or_nothing_witness :
    ∃ pre d post,
      ([⟨"good", ["x"], []⟩,
        ⟨"bad", [], [.exprStmt 0 (.ident 1 "y")]⟩] : List Def)
        = pre ++ d :: post ∧
      (∀ d' ∈ pre, ∃ g,
        (compileDef (fun _ => none) (fun _ => none) none d').1 = .ok g) ∧
      (compileDef (fun _ => none) (fun _ => none) none d).1
        = .error (.unresolvedNameError "y" 1) ∧
      ([("good", ⟨[], 1⟩)] : Module)
        = registerCompiled (fun _ => none) (fun _ => none) none [] pre ∧
      (d.name ∉ pre.map Def.name →
        lookupMethod [("good", ⟨[], 1⟩)] d.name = lookupMethod [] d.name) :=
  claim_C5_all_or_nothing (fun _ => none) (fun _ => none) none []
    [⟨"good", ["x"], []⟩, ⟨"bad", [], [.exprStmt 0 (.ident 1 "y")]⟩]
    (.unresolvedNameError "y" 1) [("good", ⟨[], 1⟩)] rfl

/-- A lexical lookup succeeds exactly for the names bound in the
environment. -/
theorem lookupEnv_ne_none_iff (xs : Env) (n : String) :
    lookupEnv xs n ≠ none ↔ n ∈ xs.map Prod.fst := by
  induction xs with
  | nil => simp [lookupEnv]
  | cons kv rest ih =>
      obtain ⟨k, v⟩ := kv
      by_cases hk : n = k <;> simp [lookupEnv, hk, ih]

/-- Lexical lookup across concatenated scopes succeeds exactly when one of
the two scopes binds the name. -/
theorem lookupEnv_append_ne_none (xs env : Env) (n : String) :
    lookupEnv (xs ++ env) n ≠ none
      ↔ (lookupEnv xs n ≠ none ∨ lookupEnv env n ≠ none) := by
  induction xs with
  | nil => simp [lookupEnv]
  | cons kv rest ih =>
      obtain ⟨k, v⟩ := kv
      by_cases hk : n = k <;> simp [lookupEnv, hk, ih]

/-- The parameter environment binds exactly the parameter names. -/
theorem paramsEnv_names (ps : List String) (start : Nat) :
    (paramsEnv ps start).map Prod.fst = ps := by
  induction ps generalizing start with
  | nil => rfl
  | cons p rest ih => simp [paramsEnv, ih]

/-- Under the empty resolver, a successful name resolution can only come
from the lexical environment. -/
theorem lowerName_empty_ok (env : Env) (loc : SourceRange) (n : String)
    (st : LowSt) (sv : SugaredValue) (st' : LowSt)
    (h : lowerName (fun _ => none) env loc n st = (.ok sv, st')) :
    lookupEnv env n = some sv := by
  unfold lowerName at h
  cases hl : lookupEnv env n with
  | some w =>
      rw [hl] at h
      injection h with h1 h2
      injection h1 with h1'
      rw [h1']
  | none => rw [hl] at h; simp at h

/-- Under the empty resolver, a successful value-position resolution
implies the name is lexically bound. -/
theorem lowerNameValue_empty_ok (env : Env) (loc : SourceRange) (n : String)
    (st : LowSt) (v : Value) (st' : LowSt)
    (h : lowerNameValue (fun _ => none) env loc n st = (.ok v, st')) :
    lookupEnv env n ≠ none := by
  unfold lowerNameValue at h
  split at h
  next e st'' heq => simp at h
  next sv st'' heq => rw [lowerName_empty_ok env loc n st sv st'' heq]; simp

/-- Under the empty resolver, successfully lowered arguments are all
lexically bound. -/
theorem lowerArgs_empty_ok (env : Env) (args : List (SourceRange × String))
    (st : LowSt) (vs : List Value) (st' : LowSt)
    (h : lowerArgs (fun _ => none) env args st = (.ok vs, st')) :
    ∀ a ∈ args, lookupEnv env a.2 ≠ none := by
  induction args generalizing st vs st' with
  | nil => intro a ha; simp at ha
  | cons a0 rest ih =>
      intro a ha
      obtain ⟨aloc, an⟩ := a0
      simp only [lowerArgs] at h
      split at h
      next e st'' heq => simp at h
      next v st'' heq =>
          split at h
          next e st3 heq2 => simp at h
          next vs2 st3 heq2 =>
              rcases List.mem_cons.mp ha with h1 | h1
              · rw [h1]
                exact lowerNameValue_empty_ok env aloc an st v st'' heq
              · exact ih st'' vs2 st3 heq2 a h1

/-- Under the empty resolver, a successfully lowered call has a lexically
bound callee and lexically bound arguments. -/
theorem lowerCall_empty_ok (ot : SugaredValue.OpTable) (env : Env)
    (loc : SourceRange) (fn : String) (args : List (SourceRange × String))
    (cd : CallsiteDescriptor) (st : LowSt) (outs : List Value) (st' : LowSt)
    (h : lowerCall ot (fun _ => none) env loc fn args cd st
      = (.ok outs, st')) :
    lookupEnv env fn ≠ none ∧ ∀ a ∈ args, lookupEnv env a.2 ≠ none := by
  unfold lowerCall at h
  split at h
  next e st'' heq => simp at h
  next fsv st'' heq =>
      split at h
      next e st3 heq2 => simp at h
      next vs st3 heq2 =>
          exact ⟨by rw [lowerName_empty_ok env loc fn st fsv st'' heq]; simp,
            lowerArgs_empty_ok env args st'' vs st3 heq2⟩

/-- A call expression whose callee and argument names are all in the bound
set has no free occurrence. -/
theorem freeInExpr_callE_false (bound : List String) (loc : SourceRange)
    (fn : String) (args : List (SourceRange × String))
    (hfn : fn ∈ bound) (hargs : ∀ a ∈ args, a.2 ∈ bound) :
    freeInExpr bound (.callE loc fn args) = false := by
  simp only [freeInExpr, Bool.or_eq_false_iff]
  constructor
  · simp [hfn]
  · rw [List.any_eq_false]
    intro a ha
    simp [hargs a ha]

/-- Under the empty resolver, a successfully lowered expression has no
free occurrence relative to any bound set matching the environment. -/
theorem lowerExpr_empty_ok_free (ot : SugaredValue.OpTable) (env : Env)
    (bound : List String) (e : Expr) (st : LowSt) (v : Value) (st' : LowSt)
    (hinv : ∀ nm, nm ∈ bound ↔ lookupEnv env nm ≠ none)
    (h : lowerExpr ot (fun _ => none) env e st = (.ok v, st')) :
    freeInExpr bound e = false := by
  cases e with
  | ident loc n =>
      simp only [lowerExpr] at h
      have hb := lowerNameValue_empty_ok env loc n st v st' h
      simp [freeInExpr, (hinv n).mpr hb]
  | callE loc fn args =>
      simp only [lowerExpr] at h
      split at h
      next e' st'' heq => simp at h
      next outs st'' heq =>
          obtain ⟨hfn, hargs⟩ :=
            lowerCall_empty_ok ot env loc fn args ⟨1, false⟩ st outs st'' heq
          exact freeInExpr_callE_false bound loc fn args ((hinv fn).mpr hfn)
            (fun a ha => (hinv a.2).mpr (hargs a ha))

/-- The `asTuple` capability always fails (no variant overrides it). -/
theorem asTuple_always_fails (sv : SugaredValue) (loc : SourceRange)
    (m : Method) :
    sv.asTuple loc m
      = (.error (.capabilityError sv.kind "asTuple" loc), m) := rfl

/-- Under the empty resolver, a successfully lowered statement has no free
occurrence and its output environment matches the extended bound set. -/
theorem lowerStmt_empty_ok_free (ot : SugaredValue.OpTable) (env : Env)
    (bound : List String) (s : Stmt) (st : LowSt) (env' : Env) (st' : LowSt)
    (hinv : ∀ nm, nm ∈ bound ↔ lookupEnv env nm ≠ none)
    (h : lowerStmt ot (fun _ => none) env s st = (.ok env', st')) :
    (match s with
     | .assign _ ts rhs => freeInExpr bound rhs = false ∧
         (∀ nm, nm ∈ ts ++ bound ↔ lookupEnv env' nm ≠ none)
     | .exprStmt _ e => freeInExpr bound e = false ∧
         (∀ nm, nm ∈ bound ↔ lookupEnv env' nm ≠ none)) := by
  cases s with
  | exprStmt loc e =>
      simp only [lowerStmt] at h
      split at h
      next e' st'' heq => simp at h
      next v st'' heq =>
          simp only [Prod.mk.injEq] at h
          injection h.1 with h1
          exact ⟨lowerExpr_empty_ok_free ot env bound e st v st'' hinv heq,
            h1 ▸ hinv⟩
  | assign loc targets rhs =>
      cases rhs with
      | callE cloc fn args =>
          simp only [lowerStmt] at h
          split at h
          next e st'' heq => simp at h
          next outs st'' heq =>
              split at h
              case isTrue hlen =>
                  simp only [Prod.mk.injEq] at h
                  injection h.1 with h1
                  obtain ⟨hfn, hargs⟩ := lowerCall_empty_ok ot env cloc fn
                    args ⟨targets.length, false⟩ st outs st'' heq
                  refine ⟨freeInExpr_callE_false bound cloc fn args
                    ((hinv fn).mpr hfn)
                    (fun a ha => (hinv a.2).mpr (hargs a ha)), ?_⟩
                  intro nm
                  rw [← h1, List.mem_append, lookupEnv_append_ne_none,
                    lookupEnv_ne_none_iff, List.map_fst_zip, hinv]
                  simp [List.length_map, hlen.symm.le]
              case isFalse hlen => simp at h
      | ident iloc nm0 =>
          cases targets with
          | cons t ts =>
              cases ts with
              | nil =>
                  simp only [lowerStmt] at h
                  split at h
                  next e st'' heq => simp at h
                  next sv st'' heq =>
                      split at h
                      next v m' heq2 =>
                          simp only [Prod.mk.injEq] at h
                          injection h.1 with h1
                          have hb : lookupEnv env nm0 ≠ none := by
                            rw [lowerName_empty_ok env iloc nm0 st sv st'' heq]
                            simp
                          refine ⟨by simp [freeInExpr, (hinv nm0).mpr hb], ?_⟩
                          intro nm
                          rw [← h1]
                          by_cases hnm : nm = t <;>
                            simp [lookupEnv, hnm, hinv nm]
                      next e m' heq2 => simp at h
              | cons t2 ts2 =>
                  simp only [lowerStmt] at h
                  split at h
                  next e st'' heq => simp at h
                  next sv st'' heq =>
                      split at h
                      next e m' heq2 => simp at h
                      next svs m' heq2 =>
                          rw [asTuple_always_fails] at heq2
                          simp at heq2
          | nil =>
              simp only [lowerStmt] at h
              split at h
              next e st'' heq => simp at h
              next sv st'' heq =>
                  split at h
                  next e m' heq2 => simp at h
                  next svs m' heq2 =>
                      rw [asTuple_always_fails] at heq2
                      simp at heq2

/-- Under the empty resolver, a successfully lowered statement list has no
free variable relative to any bound set matching the environment. -/
theorem lowerStmts_empty_ok_free (ot : SugaredValue.OpTable)
    (ss : List Stmt) (env : Env) (bound : List String) (st : LowSt)
    (env'' : Env) (st'' : LowSt)
    (hinv : ∀ nm, nm ∈ bound ↔ lookupEnv env nm ≠ none)
    (h : lowerStmts ot (fun _ => none) ss env st = (.ok env'', st'')) :
    hasFree bound ss = false := by
  induction ss generalizing env bound st with
  | nil => rfl
  | cons s rest ih =>
      simp only [lowerStmts] at h
      split at h
      next e st3 heq => simp at h
      next env' st3 heq =>
          have hs := lowerStmt_empty_ok_free ot env bound s st env' st3
            hinv heq
          cases s with
          | assign loc ts rhs =>
              obtain ⟨hf, hinv'⟩ := hs
              simp [hasFree, hf, ih env' (ts ++ bound) st3 hinv' h]
          | exprStmt loc e =>
              obtain ⟨hf, hinv'⟩ := hs
              simp [hasFree, hf, ih env' bound st3 hinv' h]

/-- A successful lexical lookup returns one of the environment's
bindings. -/
theorem lookupEnv_mem (env : Env) (n : String) (sv : SugaredValue)
    (h : lookupEnv env n = some sv) : (n, sv) ∈ env := by
  induction env with
  | nil => simp [lookupEnv] at h
  | cons kv rest ih =>
      obtain ⟨k, v⟩ := kv
      by_cases hk : n = k
      · rw [lookupEnv, if_pos hk] at h
        injection h with h1
        rw [hk, h1]
        exact List.mem_cons_self _ _
      · rw [lookupEnv, if_neg hk] at h
        exact List.mem_cons_of_mem _ (ih h)

/-- The parameter environment only binds plain graph values. -/
theorem allSimple_paramsEnv (ps : List String) (k : Nat) :
    allSimple (paramsEnv ps k) := by
  induction ps generalizing k with
  | nil => intro kv hkv; simp [paramsEnv] at hkv
  | cons p rest ih =>
      intro kv hkv
      simp only [paramsEnv, List.mem_cons] at hkv
      rcases hkv with h | h
      · exact ⟨k, by rw [h]⟩
      · exact ih (k + 1) kv h

/-- Under the empty resolver, the only error `lowerName` can produce is
the unresolved-name error for the very name and location looked up, and it
arises only when the name is absent from the lexical environment. -/
theorem lowerName_empty_error (env : Env) (loc : SourceRange) (n : String)
    (st : LowSt) (e : CompilerError) (st' : LowSt)
    (h : lowerName (fun _ => none) env loc n st = (.error e, st')) :
    e = .unresolvedNameError n loc ∧ lookupEnv env n = none := by
  unfold lowerName at h
  cases hl : lookupEnv env n with
  | some w => rw [hl] at h; simp at h
  | none =>
      rw [hl] at h
      simp only [Prod.mk.injEq] at h
      injection h.1 with h1
      exact ⟨h1.symm, rfl⟩

/-- Under the empty resolver over a simple-only environment, the only
error a value-position resolution can produce is the unresolved-name
error for the looked-up name, which is then lexically unbound. -/
theorem lowerNameValue_empty_error (env : Env) (loc : SourceRange)
    (n : String) (st : LowSt) (e : CompilerError) (st' : LowSt)
    (hs : allSimple env)
    (h : lowerNameValue (fun _ => none) env loc n st = (.error e, st')) :
    e = .unresolvedNameError n loc ∧ lookupEnv env n = none := by
  unfold lowerNameValue at h
  split at h
  next e' st'' heq =>
      simp only [Prod.mk.injEq] at h
      injection h.1 with h1
      rw [← h1]
      exact lowerName_empty_error env loc n st e' st'' heq
  next sv st'' heq =>
      obtain ⟨v, hv⟩ := hs (n, sv)
        (lookupEnv_mem env n sv (lowerName_empty_ok env loc n st sv st'' heq))
      have hv' : sv = SugaredValue.simple v := hv
      rw [hv'] at h
      simp [SugaredValue.asValue] at h

/-- Under the empty resolver over a simple-only environment, an error from
argument lowering is the unresolved-name error of one of the argument
occurrences, whose name is lexically unbound. -/
theorem lowerArgs_empty_error (env : Env)
    (args : List (SourceRange × String)) (st : LowSt) (e : CompilerError)
    (st' : LowSt) (hs : allSimple env)
    (h : lowerArgs (fun _ => none) env args st = (.error e, st')) :
    ∃ a ∈ args, e = .unresolvedNameError a.2 a.1 ∧
      lookupEnv env a.2 = none := by
  induction args generalizing st st' with
  | nil => simp [lowerArgs] at h
  | cons a0 rest ih =>
      obtain ⟨aloc, an⟩ := a0
      simp only [lowerArgs] at h
      split at h
      next e' st'' heq =>
          simp only [Prod.mk.injEq] at h
          injection h.1 with h1
          refine ⟨(aloc, an), by simp, ?_⟩
          rw [← h1]
          exact lowerNameValue_empty_error env aloc an st e' st'' hs heq
      next v st'' heq =>
          split at h
          next e' st3 heq2 =>
              simp only [Prod.mk.injEq] at h
              injection h.1 with h1
              rw [h1] at heq2
              obtain ⟨a, ha, he⟩ := ih st'' st3 heq2
              exact ⟨a, List.mem_cons_of_mem _ ha, he⟩
          next vs st3 heq2 => simp at h

/-- Under the empty resolver over a simple-only environment, a lowered
call never succeeds: the callee is necessarily a plain graph value, whose
`call` capability fails. -/
theorem lowerCall_empty_not_ok (ot : SugaredValue.OpTable) (env : Env)
    (loc : SourceRange) (fn : String) (args : List (SourceRange × String))
    (cd : CallsiteDescriptor) (st : LowSt) (outs : List Value) (st' : LowSt)
    (hs : allSimple env)
    (h : lowerCall ot (fun _ => none) env loc fn args cd st
      = (.ok outs, st')) : False := by
  unfold lowerCall at h
  split at h
  next e st'' heq => simp at h
  next fsv st'' heq =>
      split at h
      next e st3 heq2 => simp at h
      next vs st3 heq2 =>
          obtain ⟨v, hv⟩ := hs (fn, fsv) (lookupEnv_mem env fn fsv
            (lowerName_empty_ok env loc fn st fsv st'' heq))
          have hv' : fsv = SugaredValue.simple v := hv
          rw [hv'] at h
          simp [SugaredValue.call] at h

/-- Under the empty resolver over a simple-only environment, an error from
call lowering is either the unresolved-name error of the lexically unbound
callee or of one of the lexically unbound arguments, or the capability
error of calling a plain value. -/
theorem lowerCall_empty_error (ot : SugaredValue.OpTable) (env : Env)
    (loc : SourceRange) (fn : String) (args : List (SourceRange × String))
    (cd : CallsiteDescriptor) (st : LowSt) (e : CompilerError) (st' : LowSt)
    (hs : allSimple env)
    (h : lowerCall ot (fun _ => none) env loc fn args cd st
      = (.error e, st')) :
    (e = .unresolvedNameError fn loc ∧ lookupEnv env fn = none) ∨
    (∃ a ∈ args, e = .unresolvedNameError a.2 a.1 ∧
      lookupEnv env a.2 = none) ∨
    e = .capabilityError "value" "call" loc := by
  unfold lowerCall at h
  split at h
  next e' st'' heq =>
      simp only [Prod.mk.injEq] at h
      injection h.1 with h1
      rw [← h1]
      exact Or.inl (lowerName_empty_error env loc fn st e' st'' heq)
  next fsv st'' heq =>
      split at h
      next e' st3 heq2 =>
          simp only [Prod.mk.injEq] at h
          injection h.1 with h1
          rw [h1] at heq2
          exact Or.inr (Or.inl (lowerArgs_empty_error env args st'' e st3
            hs heq2))
      next vs st3 heq2 =>
          obtain ⟨v, hv⟩ := hs (fn, fsv) (lookupEnv_mem env fn fsv
            (lowerName_empty_ok env loc fn st fsv st'' heq))
          have hv' : fsv = SugaredValue.simple v := hv
          rw [hv'] at h
          simp only [SugaredValue.call, Prod.mk.injEq] at h
          injection h.1 with h1
          exact Or.inr (Or.inr h1.symm)

/-- Under the empty resolver over a simple-only environment whose bindings
are exactly a bound set, an unresolved-name error from expression lowering
names one of the expression's free occurrences with its range. -/
theorem lowerExpr_empty_error (ot : SugaredValue.OpTable) (env : Env)
    (bound : List String) (e0 : Expr) (st : LowSt) (er : CompilerError)
    (st' : LowSt) (hs : allSimple env)
    (hinv : ∀ nm, nm ∈ bound ↔ lookupEnv env nm ≠ none)
    (h : lowerExpr ot (fun _ => none) env e0 st = (.error er, st')) :
    ∀ n l, er = .unresolvedNameError n l →
      (n, l) ∈ freeMentionsExpr bound e0 := by
  cases e0 with
  | ident loc nm =>
      intro n l he
      simp only [lowerExpr] at h
      obtain ⟨hu, hl⟩ := lowerNameValue_empty_error env loc nm st er st' hs h
      rw [he] at hu
      injection hu with h1 h2
      have hnb : nm ∉ bound := fun hb => (hinv nm).mp hb hl
      simp [freeMentionsExpr, hnb, h1, h2]
  | callE loc fn args =>
      simp only [lowerExpr] at h
      split at h
      next e' st'' heq =>
          intro n l he
          simp only [Prod.mk.injEq] at h
          injection h.1 with h1
          rw [h1] at heq
          rcases lowerCall_empty_error ot env loc fn args ⟨1, false⟩ st er
            st'' hs heq with ⟨hc, hl⟩ | hc | hc
          · rw [he] at hc
            injection hc with h2 h3
            have hnb : fn ∉ bound := fun hb => (hinv fn).mp hb hl
            simp [freeMentionsExpr, hnb, h2, h3]
          · obtain ⟨a, ha, hea, hl⟩ := hc
            rw [he] at hea
            injection hea with h2 h3
            have hnb : a.2 ∉ bound := fun hb => (hinv a.2).mp hb hl
            simp only [freeMentionsExpr, List.mem_append]
            right
            rw [h2, h3]
            exact List.mem_map_of_mem _
              (List.mem_filter.mpr ⟨ha, by simp [hnb]⟩)
          · rw [he] at hc; simp at hc
      next outs st'' heq =>
          exact absurd heq (fun hq => lowerCall_empty_not_ok ot env loc fn
            args ⟨1, false⟩ st outs st'' hs hq)

/-- Under the empty resolver, successful statement lowering keeps every
environment binding a plain graph value. -/
theorem lowerStmt_empty_preserves_allSimple (ot : SugaredValue.OpTable)
    (env : Env) (s : Stmt) (st : LowSt) (env' : Env) (st' : LowSt)
    (hs : allSimple env)
    (h : lowerStmt ot (fun _ => none) env s st = (.ok env', st')) :
    allSimple env' := by
  cases s with
  | exprStmt loc e =>
      simp only [lowerStmt] at h
      split at h
      next e' st'' heq => simp at h
      next v st'' heq =>
          simp only [Prod.mk.injEq] at h
          injection h.1 with h1
          rw [← h1]
          exact hs
  | assign loc targets rhs =>
      cases rhs with
      | callE cloc fn args =>
          simp only [lowerStmt] at h
          split at h
          next e st'' heq => simp at h
          next outs st'' heq =>
              exact absurd heq (fun hq => lowerCall_empty_not_ok ot env cloc
                fn args ⟨targets.length, false⟩ st outs st'' hs hq)
      | ident iloc nm0 =>
          cases targets with
          | cons t ts =>
              cases ts with
              | nil =>
                  simp only [lowerStmt] at h
                  split at h
                  next e st'' heq => simp at h
                  next sv st'' heq =>
                      split at h
                      next v m' heq2 =>
                          simp only [Prod.mk.injEq] at h
                          injection h.1 with h1
                          rw [← h1]
                          intro kv hkv
                          rcases List.mem_cons.mp hkv with hk | hk
                          · exact ⟨v, by rw [hk]⟩
                          · exact hs kv hk
                      next e m' heq2 => simp at h
              | cons t2 ts2 =>
                  simp only [lowerStmt] at h
                  split at h
                  next e st'' heq => simp at h
                  next sv st'' heq =>
                      split at h
                      next e m' heq2 => simp at h
                      next svs m' heq2 =>
                          rw [asTuple_always_fails] at heq2
                          simp at heq2
          | nil =>
              simp only [lowerStmt] at h
              split at h
              next e st'' heq => simp at h
              next sv st'' heq =>
                  split at h
                  next e m' heq2 => simp at h
                  next svs m' heq2 =>
                      rw [asTuple_always_fails] at heq2
                      simp at heq2

/-- Under the empty resolver over a simple-only environment whose bindings
are exactly a bound set, an unresolved-name error from statement lowering
names one of the statement's free right-hand-side occurrences. -/
theorem lowerStmt_empty_error (ot : SugaredValue.OpTable) (env : Env)
    (bound : List String) (s : Stmt) (st : LowSt) (er : CompilerError)
    (st' : LowSt) (hs : allSimple env)
    (hinv : ∀ nm, nm ∈ bound ↔ lookupEnv env nm ≠ none)
    (h : lowerStmt ot (fun _ => none) env s st = (.error er, st')) :
    ∀ n l, er = .unresolvedNameError n l →
      (n, l) ∈ (match s with
        | .assign _ _ rhs => freeMentionsExpr bound rhs
        | .exprStmt _ e => freeMentionsExpr bound e) := by
  cases s with
  | exprStmt loc e =>
      simp only [lowerStmt] at h
      split at h
      next e' st'' heq =>
          simp only [Prod.mk.injEq] at h
          injection h.1 with h1
          rw [h1] at heq
          exact lowerExpr_empty_error ot env bound e st er st'' hs hinv heq
      next v st'' heq => simp at h
  | assign loc targets rhs =>
      cases rhs with
      | callE cloc fn args =>
          simp only [lowerStmt] at h
          split at h
          next e' st'' heq =>
              intro n l he
              simp only [Prod.mk.injEq] at h
              injection h.1 with h1
              rw [h1] at heq
              rcases lowerCall_empty_error ot env cloc fn args
                ⟨targets.length, false⟩ st er st'' hs heq
                with ⟨hc, hl⟩ | hc | hc
              · rw [he] at hc
                injection hc with h2 h3
                have hnb : fn ∉ bound := fun hb => (hinv fn).mp hb hl
                simp [freeMentionsExpr, hnb, h2, h3]
              · obtain ⟨a, ha, hea, hl⟩ := hc
                rw [he] at hea
                injection hea with h2 h3
                have hnb : a.2 ∉ bound := fun hb => (hinv a.2).mp hb hl
                simp only [freeMentionsExpr, List.mem_append]
                right
                rw [h2, h3]
                exact List.mem_map_of_mem _
                  (List.mem_filter.mpr ⟨ha, by simp [hnb]⟩)
              · rw [he] at hc; simp at hc
          next outs st'' heq =>
              exact absurd heq (fun hq => lowerCall_empty_not_ok ot env cloc
                fn args ⟨targets.length, false⟩ st outs st'' hs hq)
      | ident iloc nm0 =>
          have hname : ∀ (e' : CompilerError) (st'' : LowSt),
              lowerName (fun _ => none) env iloc nm0 st = (.error e', st'') →
              e' = er →
              ∀ n l, er = .unresolvedNameError n l →
                (n, l) ∈ freeMentionsExpr bound (.ident iloc nm0) := by
            intro e' st'' heq h1 n l he
            obtain ⟨hu, hl⟩ := lowerName_empty_error env iloc nm0 st e'
              st'' heq
            rw [h1, he] at hu
            injection hu with h2 h3
            have hnb : nm0 ∉ bound := fun hb => (hinv nm0).mp hb hl
            simp [freeMentionsExpr, hnb, h2, h3]
          cases targets with
          | cons t ts =>
              cases ts with
              | nil =>
                  simp only [lowerStmt] at h
                  split at h
                  next e' st'' heq =>
                      simp only [Prod.mk.injEq] at h
                      injection h.1 with h1
                      exact hname e' st'' heq h1
                  next sv st'' heq =>
                      split at h
                      next v m' heq2 => simp at h
                      next e' m' heq2 =>
                          obtain ⟨v, hv⟩ := hs (nm0, sv) (lookupEnv_mem env
                            nm0 sv (lowerName_empty_ok env iloc nm0 st sv
                              st'' heq))
                          have hv' : sv = SugaredValue.simple v := hv
                          rw [hv'] at heq2
                          simp [SugaredValue.asValue] at heq2
              | cons t2 ts2 =>
                  simp only [lowerStmt] at h
                  split at h
                  next e' st'' heq =>
                      simp only [Prod.mk.injEq] at h
                      injection h.1 with h1
                      exact hname e' st'' heq h1
                  next sv st'' heq =>
                      split at h
                      next e' m' heq2 =>
                          intro n l he
                          rw [asTuple_always_fails] at heq2
                          simp only [Prod.mk.injEq] at heq2
                          injection heq2.1 with h2
                          simp only [Prod.mk.injEq] at h
                          injection h.1 with h1
                          rw [← h1, ← h2] at he
                          simp at he
                      next svs m' heq2 =>
                          rw [asTuple_always_fails] at heq2
                          simp at heq2
          | nil =>
              simp only [lowerStmt] at h
              split at h
              next e' st'' heq =>
                  simp only [Prod.mk.injEq] at h
                  injection h.1 with h1
                  exact hname e' st'' heq h1
              next sv st'' heq =>
                  split at h
                  next e' m' heq2 =>
                      intro n l he
                      rw [asTuple_always_fails] at heq2
                      simp only [Prod.mk.injEq] at heq2
                      injection heq2.1 with h2
                      simp only [Prod.mk.injEq] at h
                      injection h.1 with h1
                      rw [← h1, ← h2] at he
                      simp at he
                  next svs m' heq2 =>
                      rw [asTuple_always_fails] at heq2
                      simp at heq2

/-- Under the empty resolver over a simple-only environment whose bindings
are exactly a bound set, an unresolved-name error from lowering a
statement list names one of the list's free occurrences. -/
theorem lowerStmts_empty_error (ot : SugaredValue.OpTable) (ss : List Stmt)
    (env : Env) (bound : List String) (st : LowSt) (er : CompilerError)
    (st'' : LowSt) (hs : allSimple env)
    (hinv : ∀ nm, nm ∈ bound ↔ lookupEnv env nm ≠ none)
    (h : lowerStmts ot (fun _ => none) ss env st = (.error er, st'')) :
    ∀ n l, er = .unresolvedNameError n l →
      (n, l) ∈ freeMentionsStmts bound ss := by
  induction ss generalizing env bound st with
  | nil => simp [lowerStmts] at h
  | cons s rest ih =>
      simp only [lowerStmts] at h
      split at h
      next e st3 heq =>
          intro n l he
          simp only [Prod.mk.injEq] at h
          injection h.1 with h1
          rw [h1] at heq
          have hmem := lowerStmt_empty_error ot env bound s st er st3 hs
            hinv heq n l he
          cases s with
          | assign loc2 ts rhs =>
              simp only [freeMentionsStmts, List.mem_append]
              exact Or.inl hmem
          | exprStmt loc2 e2 =>
              simp only [freeMentionsStmts, List.mem_append]
              exact Or.inl hmem
      next env' st3 heq =>
          intro n l he
          have hs' := lowerStmt_empty_preserves_allSimple ot env s st env'
            st3 hs heq
          have hok := lowerStmt_empty_ok_free ot env bound s st env' st3
            hinv heq
          cases s with
          | assign loc2 ts rhs =>
              obtain ⟨hf, hinv'⟩ := hok
              have hmem := ih env' (ts ++ bound) st3 hs' hinv' h n l he
              simp only [freeMentionsStmts, List.mem_append]
              exact Or.inr hmem
          | exprStmt loc2 e2 =>
              obtain ⟨hf, hinv'⟩ := hok
              have hmem := ih env' bound st3 hs' hinv' h n l he
              simp only [freeMentionsStmts, List.mem_append]
              exact Or.inr hmem

/-- C6 counterexample: the claim as stated is false.  This definition
(parameters `["x"]`) references the free variable `"y"`, yet compiling it
with the everywhere-absent resolver fails with the CapabilityError of
calling the graph value bound to `x` — raised before the free reference is
reached — not with an UnresolvedNameError. -/
theorem claim_C6_counterexample :
    hasFree ["x"]
      [.exprStmt 0 (.callE 1 "x" []), .exprStmt 2 (.ident 3 "y")] = true ∧
    compileFunction (fun _ => none)
      ⟨"f", ["x"],
        [.exprStmt 0 (.callE 1 "x" []), .exprStmt 2 (.ident 3 "y")]⟩
      (fun _ => none)
      = .error (.capabilityError "value" "call" 1) := by
  exact ⟨rfl, rfl⟩

/-- C6 (amended): with a resolver that returns absent for every name,
compiling any definition that references at least one free variable fails;
whenever the failure is an `UnresolvedNameError`, it carries exactly the
name and `SourceRange` of a free-variable occurrence of the definition —
an occurrence whose name is bound neither by a formal parameter nor by an
earlier assignment target (the first fault encountered during lowering
may instead be a `CapabilityError`, as the counterexample shows). -/
theorem claim_C6_unresolved_free_variable (ot : SugaredValue.OpTable)
    (d : Def) (hfree : hasFree d.params d.body = true) :
    (∃ e, compileFunction ot d (fun _ => none) = .error e) ∧
    (∀ n loc, compileFunction ot d (fun _ => none)
        = .error (.unresolvedNameError n loc) →
      (n, loc) ∈ freeMentionsStmts d.params d.body) := by
  have hini : initialEnv none d.params
      = (paramsEnv d.params 0, d.params.length) := rfl
  have hinv : ∀ nm, nm ∈ d.params ↔
      lookupEnv (paramsEnv d.params 0) nm ≠ none := by
    intro nm
    rw [lookupEnv_ne_none_iff, paramsEnv_names]
  constructor
  · rcases hls : lowerStmts ot (fun _ => none) d.body (paramsEnv d.params 0)
        ⟨⟨[], d.params.length⟩, []⟩ with ⟨res, stf⟩
    cases res with
    | error e =>
        refine ⟨e, ?_⟩
        unfold compileFunction compileDef
        rw [hini]
        dsimp only
        rw [hls]
    | ok envf =>
        exfalso
        have hff := lowerStmts_empty_ok_free ot d.body (paramsEnv d.params 0)
          d.params ⟨⟨[], d.params.length⟩, []⟩ envf stf hinv hls
        rw [hfree] at hff
        exact Bool.noConfusion hff
  · intro n loc hc
    unfold compileFunction compileDef at hc
    rw [hini] at hc
    dsimp only at hc
    split at hc
    next envf stf heq => simp at hc
    next e stf heq =>
        have he : e = .unresolvedNameError n loc := by
          injection hc with h1
        rw [he] at heq
        exact lowerStmts_empty_error ot d.body (paramsEnv d.params 0)
          d.params ⟨⟨[], d.params.length⟩, []⟩ (.unresolvedNameError n loc)
          stf (allSimple_paramsEnv d.params 0) hinv heq n loc rfl

/-- C6 witness: a definition whose body references the free variable `"y"`
fails to compile under the everywhere-absent resolver. -/
theorem claim_C6_unresolved_free_variable_witness :
    ∃ e, compileFunction (fun _ => none)
      ⟨"f", ["x"], [.exprStmt 0 (.ident 1 "y")]⟩ (fun _ => none)
      = .error e :=
  (claim_C6_unresolved_free_variable (fun _ => none)
    ⟨"f", ["x"], [.exprStmt 0 (.ident 1 "y")]⟩ rfl).1

end TorchScript
